import Mathlib


/-!
Verification of the selection-reconciliation engine of ReactScannerPY.

The development is a shallow embedding of the two Python scripts:

* `src/buildMasterHeaders.py` — gitignore-pattern loading (`load_gitignore_patterns`),
  glob matching (`fnmatch`, `path_matches_patterns`, `should_skip_dir`), the
  recursive tree scan (`scan_folder`, here over an explicit filesystem tree),
  and the selection reconciliation performed by `main` over the CODE sheet
  (`reconcile`).
* `src/generateReactCodeDoc.py` — longest-prefix repository matching
  (`find_best_codefolder`), folder-label resolution (`resolveLabel`, where
  pathlib's `relative_to` exception is modelled as `none`), and document
  assembly (`entryOut`, `assembleDoc`).

Python strings are modelled as Lean `String`s (lists of characters);
worksheet rows are records; the filesystem is an explicit tree of named
files and directories; file reads during assembly are an explicit
`String → Except String String` oracle (error = a raised `Exception`,
whose message is the interpolated `{e}`).  Absolute resolved POSIX paths
are modelled as clean paths: `"/"`-joined nonempty slash-free components.
-/


/-! ## Data of the CODE sheet (buildMasterHeaders.py, main) -/


/-- One data row of the CODE sheet: columns Path, File, Depth, WantDoc.
An empty `path` stands for a falsy Path cell (skipped by `if p:`). -/
structure Row where
  path : String
  file : String
  depth : Nat
  wantDoc : Bool
deriving DecidableEq, Repr


/-- One element of `all_scanned_records`:
`(str(folder_path.resolve()), str(f.resolve()), f.name, depth)`. -/
structure ScanRecord where
  root : String
  path : String
  fname : String
  depth : Nat
deriving DecidableEq, Repr


/-- The dict `existing_rows` built in `main` (lines 174–181): iterate the
rows in order, keep rows with a truthy Path, later rows overwrite earlier
ones with the same Path.  Looking up `p` therefore returns the last row
whose Path is `p`, and never succeeds for a falsy (empty) Path. -/
def lookupExisting (rows : List Row) (p : String) : Option Row :=
  if p = "" then none else (rows.filter (fun r => r.path = p)).getLast?


/-- `new_paths = set(r[1] for r in all_scanned_records)` followed by
`sorted(new_paths)`: the distinct scanned paths in ascending string order. -/
def newPaths (scans : List ScanRecord) : List String :=
  List.insertionSort (· ≤ ·) (scans.map (fun r => r.path)).dedup


/-- The body of the reconciliation loop of `main` (lines 188–201) for one
path of `sorted(new_paths)`: take the first scan record with that path
(`next(...)`), carry the old WantDoc forward when the dict has the path,
else start at `False`; a path with no scan record appends nothing (the
dead `else: pass`). -/
def buildRow (existingRows : List Row) (scans : List ScanRecord) (p : String) : Option Row :=
  match scans.find? (fun r => r.path == p) with
  | some r =>
      match lookupExisting existingRows p with
      | some old => some { path := p, file := r.fname, depth := r.depth, wantDoc := old.wantDoc }
      | none => some { path := p, file := r.fname, depth := r.depth, wantDoc := false }
  | none => none


/-- The reconciliation performed by `main` (lines 174–201): the CODE sheet
is cleared and one row is appended per sorted distinct scanned path. -/
def reconcile (existingRows : List Row) (scans : List ScanRecord) : List Row :=
  (newPaths scans).filterMap (buildRow existingRows scans)


/-! ### Reconciliation lemmas -/


/-- Proof-internal total form of `buildRow` (the `none` branch of
`scans.find?` is unreachable for a path drawn from the scan). -/
def rowFor (existingRows : List Row) (scans : List ScanRecord) (p : String) : Row :=
  match scans.find? (fun r => r.path == p) with
  | some r =>
      match lookupExisting existingRows p with
      | some old => { path := p, file := r.fname, depth := r.depth, wantDoc := old.wantDoc }
      | none => { path := p, file := r.fname, depth := r.depth, wantDoc := false }
  | none => { path := p, file := "", depth := 0, wantDoc := false }


/-! ## Gitignore loading (buildMasterHeaders.py, load_gitignore_patterns) -/


/-- A character Python's `str.strip()` removes (the ASCII whitespace set). -/
def isPySpace (c : Char) : Bool :=
  c = ' ' || c = '\t' || c = '\n' || c = '\r' || c = '\x0b' || c = '\x0c'


/-- Python `line.strip()`: drop leading and trailing whitespace. -/
def pyStrip (s : String) : String :=
  String.mk (((s.data.dropWhile isPySpace).reverse.dropWhile isPySpace).reverse)


/-- `load_gitignore_patterns` (lines 23–37): the ignore file is `none` when
absent, else its raw lines in order; each line is stripped, and blank or
`#`-comment results are skipped. -/
def load_gitignore_patterns (gitignoreLines : Option (List String)) : List String :=
  match gitignoreLines with
  | none => []
  | some ls =>
      ls.filterMap (fun line =>
        if (pyStrip line == "") || (pyStrip line).startsWith "#" then none
        else some (pyStrip line))


/-! ## Glob matching (buildMasterHeaders.py, fnmatch) -/


/-- Scan for the closing `]` of a character class: the chars before it and
the chars after it. `none` when the class is not closed. -/
def findRBracket : List Char → Option (List Char × List Char)
  | [] => none
  | c :: rest =>
    if c = ']' then some ([], rest)
    else (findRBracket rest).map (fun pr => (c :: pr.1, pr.2))


/-- Decompose the pattern text following a `[` the way Python's
`fnmatch.translate` does: a leading `!` negates, a `]` directly after it is
a literal member, then everything up to the next `]` is the class content.
`none` when no closing `]` exists (the `[` is then a literal). -/
def splitClass (s : List Char) : Option (Bool × List Char × List Char) :=
  let neg := decide (s.head? = some '!')
  let s1 := if neg then s.tail else s
  let pre := decide (s1.head? = some ']')
  let s2 := if pre then s1.tail else s1
  match findRBracket s2 with
  | none => none
  | some pr => some (neg, (if pre then [']'] else []) ++ pr.1, pr.2)


/-- Membership of a character in a class body: `a-b` ranges, else literals. -/
def classMatches : List Char → Char → Bool
  | [], _ => false
  | a :: '-' :: b :: rest, c =>
    if a ≤ c ∧ c ≤ b then true else classMatches rest c
  | a :: rest, c => if a = c then true else classMatches rest c


/-- Termination bound for `globMatch` (phrased as a `def` so the
glob matcher, which needs it, can be declared with the other
definitions). -/
def findRBracket_length : ∀ {l : List Char} {a b : List Char},
    findRBracket l = some (a, b) → b.length < l.length := by
  intro l
  induction l with
  | nil => intro a b h; simp [findRBracket] at h
  | cons c rest ih =>
    intro a b h
    rw [findRBracket] at h
    by_cases hc : c = ']'
    · rw [if_pos hc] at h
      simp at h
      simp [← h.2]
    · rw [if_neg hc] at h
      cases hf : findRBracket rest with
      | none => rw [hf] at h; simp at h
      | some pr =>
        rw [hf] at h
        simp at h
        have := ih (a := pr.1) (b := pr.2) (by rw [hf])
        rw [← h.2]
        simp
        omega


/-- Termination bound for `globMatch`. -/
def splitClass_length {s : List Char} {neg : Bool} {content rest : List Char}
    (h : splitClass s = some (neg, content, rest)) : rest.length < s.length := by
  rw [splitClass] at h
  set s1 := if decide (s.head? = some '!') = true then s.tail else s with hs1
  set s2 := if decide (s1.head? = some ']') = true then s1.tail else s1 with hs2
  have hlen1 : s1.length ≤ s.length := by
    rw [hs1]; split <;> simp [List.length_tail]
  have hlen2 : s2.length ≤ s1.length := by
    rw [hs2]; split <;> simp [List.length_tail]
  cases hf : findRBracket s2 with
  | none =>
    simp only [hf] at h
    exact Option.noConfusion h
  | some pr =>
    simp only [hf] at h
    have hb := findRBracket_length (a := pr.1) (b := pr.2) (by rw [hf])
    have hlen3 : rest.length = pr.2.length := by
      cases h
      rfl
    omega


/-- The matching relation of Python's `fnmatch.translate` patterns over
character lists: `*` matches any sequence, `?` any single character, a
closed `[...]` a class member, an unclosed `[` itself, anything else
matches itself; the whole string must be consumed. -/
def globMatch : List Char → List Char → Bool
  | [], s => s.isEmpty
  | p :: ps, s =>
    if p = '*' then
      globMatch ps s ||
        (match s with
         | [] => false
         | _ :: ss => globMatch (p :: ps) ss)
    else if p = '[' then
      match hsc : splitClass ps with
      | some (neg, content, rest) =>
        (match s with
         | [] => false
         | c :: ss => ((classMatches content c) != neg) && globMatch rest ss)
      | none =>
        (match s with
         | [] => false
         | c :: ss => (c = '[') && globMatch ps ss)
    else
      match s with
      | [] => false
      | c :: ss => (p = '?' || c = p) && globMatch ps ss
termination_by p s => (p.length, s.length)
decreasing_by
  · exact Prod.Lex.left _ _ (by simp [List.length_cons])
  · exact Prod.Lex.right _ (by simp [List.length_cons])
  · exact Prod.Lex.left _ _ (by
      have := splitClass_length hsc
      simp only [List.length_cons]
      omega)
  · exact Prod.Lex.left _ _ (by simp [List.length_cons])
  · exact Prod.Lex.left _ _ (by simp [List.length_cons])


/-- `fnmatch.fnmatch(path_str, p)` (POSIX `normcase` is the identity). -/
def fnmatch (path_str pat : String) : Bool :=
  globMatch pat.data path_str.data


/-- `path_matches_patterns` (lines 39–47): first matching pattern wins. -/
def path_matches_patterns (path_str : String) (patterns : List String) : Bool :=
  patterns.any (fun p => fnmatch path_str p)


/-- `should_skip_dir` (lines 49–56): the directory's relative path is
tested with a trailing separator appended — and only so. -/
def should_skip_dir (rel_dir_str : String) (patterns : List String) : Bool :=
  path_matches_patterns (rel_dir_str ++ "/") patterns


/-! ## Tree scanning (buildMasterHeaders.py, scan_folder) -/


/-- The set `hardcoded_ignores = {".next", "node_modules", "archive"}`. -/
def hardcodedIgnores : List String := [".next", "node_modules", "archive"]


/-- `str()` of a relative `Path` given as its components (`'/'`-joined). -/
def joinParts (parts : List String) : String := String.intercalate "/" parts


/-- `pathlib` `.suffix` of a file name: the part from the last dot on, when
that dot is neither the first nor the last character, else empty. -/
def pySuffix (name : String) : String :=
  let rev := name.data.reverse
  let ext := rev.takeWhile (fun c => c ≠ '.')
  match rev.dropWhile (fun c => c ≠ '.') with
  | [] => ""
  | [_] => ""
  | _ :: _ :: _ => if ext.isEmpty then "" else String.mk ('.' :: ext.reverse)


mutual

/-- A filesystem node: a plain file or a directory with its listing. -/
inductive FSNode where
  | file (name : String) : FSNode
  | dir (name : String) (children : FSEntries) : FSNode

/-- A directory listing, in listing order. -/
inductive FSEntries where
  | nil : FSEntries
  | cons (entry : FSNode) (rest : FSEntries) : FSEntries
end


/-- The per-file body of `scan_folder`'s inner loop (lines 86–97): a file
is emitted (as its relative path components) when its suffix is `.js` or
`.css` and its relative path matches no ignore pattern. -/
def emitFile (patterns : List String) (relParts : List String) (n : String) :
    List (List String) :=
  if (pySuffix n == ".js" || pySuffix n == ".css")
      && !(path_matches_patterns (joinParts (relParts ++ [n])) patterns)
  then [relParts ++ [n]]
  else []


/-- The `os.walk` loop of `scan_folder` (lines 70–97) over the listing of
the directory at relative components `relParts`, whose own pruning checks
the caller has already passed: the first component collects this
directory's emitted files, the second the records of its (non-pruned)
subtrees, in listing order — so `fst ++ snd` is exactly the walk order
(files of a directory before its subtrees).  A subdirectory `q` is pruned
when some component of `q` is a hardcoded ignore name, or when
`should_skip_dir` accepts `q` (the `rel_dir != '.'` guard is moot below
the root). -/
def walkEntries (patterns : List String) (relParts : List String) :
    FSEntries → List (List String) × List (List String)
  | .nil => ([], [])
  | .cons (.file n) rest =>
      let pr := walkEntries patterns relParts rest
      (emitFile patterns relParts n ++ pr.1, pr.2)
  | .cons (.dir n cs) rest =>
      let pr := walkEntries patterns relParts rest
      let q := relParts ++ [n]
      let sub :=
        if q.any (fun part => hardcodedIgnores.contains part) then []
        else if should_skip_dir (joinParts q) patterns then []
        else
          let s := walkEntries patterns q cs
          s.1 ++ s.2
      (pr.1, sub ++ pr.2)


/-- `scan_folder(root, patterns)` (lines 62–99): results of walking the
repository root's listing; at the root itself `rel_dir` is `'.'`, so both
pruning checks pass vacuously. -/
def scan_folder (patterns : List String) (rootEntries : FSEntries) : List (List String) :=
  (walkEntries patterns [] rootEntries).1 ++ (walkEntries patterns [] rootEntries).2


/-- A small concrete repository tree: a tracked file at the root, a
`node_modules` subtree (hardcoded-pruned), and a `src` subtree. -/
def sampleTree : FSEntries :=
  .cons (.file "a.js")
    (.cons (.dir "node_modules" (.cons (.file "b.js") .nil))
      (.cons (.dir "src" (.cons (.file "d.css") .nil)) .nil))


/-! ## Repository-root matching (generateReactCodeDoc.py, find_best_codefolder) -/


/-- Python `file_str.startswith(cf)`: character-level prefix test. -/
def strStartsWith (s pre : String) : Bool := pre.data.isPrefixOf s.data


/-- One iteration of the loop in `find_best_codefolder` (lines 70–78):
keep the incumbent unless the candidate is a prefix of the file path and
strictly longer than the incumbent (or there is no incumbent yet). -/
def bestStep (file_str : String) (best : Option String) (cf : String) : Option String :=
  if strStartsWith file_str cf then
    match best with
    | none => some cf
    | some b => if cf.length > b.length then some cf else best
  else best


/-- `find_best_codefolder(file_path, codefolders)` (lines 70–78). -/
def find_best_codefolder (file_str : String) (codefolders : List String) : Option String :=
  codefolders.foldl (bestStep file_str) none


/-- Modelled from the spec's words, only to state the original C5 claim:
`root` is a path-prefix of `file` when it is the same path or an ancestor
at a component boundary (its text followed by the separator starts `file`). -/
def isPathPfx (root file : String) : Bool :=
  (root == file) || (root ++ "/").data.isPrefixOf file.data


/-! ## Path model (generateReactCodeDoc.py, main lines 80–98)

Absolute resolved POSIX paths are modelled as clean paths: a leading `/`
followed by `/`-joined nonempty slash-free components, the form
`Path.resolve()` produces. -/


/-- Join path components (as character lists) with `/` separators. -/
def joinSlash : List (List Char) → List Char
  | [] => []
  | [p] => p
  | p :: ps => p ++ '/' :: joinSlash ps


/-- The string of the absolute path with the given components
(`str(Path("/x/y"))`); `absStr [] = "/"`. -/
def absStr (parts : List String) : String :=
  String.mk ('/' :: joinSlash (parts.map String.data))


/-- Split a character list at `/` separators, dropping empty fields:
`cur` accumulates the current field reversed. -/
def splitAux (cur : List Char) : List Char → List (List Char)
  | [] => if cur.isEmpty then [] else [cur.reverse]
  | c :: rest =>
    if c = '/' then
      if cur.isEmpty then splitAux [] rest else cur.reverse :: splitAux [] rest
    else splitAux (c :: cur) rest


/-- The components of a path string (pathlib's `.parts`, without the root
marker that both sides of `relative_to` share for absolute paths). -/
def splitAbs (s : String) : List String :=
  (splitAux [] s.data).map String.mk


/-- `str(Path(s).parent)`: drop the last component. -/
def parentStr (s : String) : String := absStr ((splitAbs s).dropLast)


/-- pathlib's `relative_to` on component lists: the suffix after the base's
components when those lead into `p`, else `none` (a raised `ValueError`). -/
def relTo (p q : List String) : Option (List String) :=
  if q.isPrefixOf p then some (p.drop q.length) else none


/-- `str()` of a relative path given by components; no components is `.`. -/
def relStr (parts : List String) : String :=
  if parts.isEmpty then "." else String.mk (joinSlash (parts.map String.data))


/-- The folder-marker computation of `generateReactCodeDoc.main`
(lines 86–95): the file's parent directory is the fallback label; a best
matching root replaces it by `../` + the parent directory relative to the
root's parent, and a `relative_to` failure (impossible for clean inputs,
see `resolveLabel_total`) is `none`. -/
def resolveLabel (filePath : String) (codefolders : List String) : Option String :=
  let parent_dir := parentStr filePath
  match find_best_codefolder filePath codefolders with
  | none => some parent_dir
  | some best_cf =>
      match relTo (splitAbs parent_dir) (splitAbs (parentStr best_cf)) with
      | none => none
      | some rel => some ("../" ++ relStr rel)


/-- A well-formed path component: nonempty and free of separators. -/
def cleanPart (p : String) : Bool := !(p == "") && !(p.data.contains '/')


/-- A well-formed component list for a clean absolute path. -/
def cleanPath (ps : List String) : Bool := ps.all cleanPart


/-! ## Document assembly (generateReactCodeDoc.py, main lines 52–110) -/


/-- The folder-marker line `——>>> FOLDER : {folder_marker} <<<——\n`. -/
def folderLine (label : String) : String := "——>>> FOLDER : " ++ label ++ " <<<——\n"


/-- The file-start marker line `——>>> users code <<<——\n`. -/
def usersCodeLine : String := "——>>> users code <<<——\n"


/-- `"\n" * 5`, the separator written after every entry. -/
def sep5 : String := "\n\n\n\n\n"


/-- The `try`/`except` body (lines 101–107): the file's verbatim content,
or the inline error marker around the exception's message. -/
def contentOf (reader : String → Except String String) (p : String) : String :=
  match reader p with
  | Except.ok content => content
  | Except.error msg => "\n[Error reading file: " ++ msg ++ "]\n"


/-- The rows selected for assembly (lines 52–59): WantDoc entries in
ascending Path order (Python's stable `sort(key=lambda x: x[0])`). -/
def includedEntries (rows : List Row) : List Row :=
  List.insertionSort (fun a b => a.path ≤ b.path) (rows.filter (fun r => r.wantDoc))


/-- The writes of one iteration of the output loop (lines 81–110):
`folder_marker` is abstracted as a label function `labelF` (its value is
the `resolveLabel` computation, treated separately); the folder line is
written only when `depth <= 4`, the file-start line always, then content
or error marker, then five newlines. -/
def entryOut (labelF : String → String) (reader : String → Except String String)
    (e : Row) : String :=
  (if e.depth ≤ 4 then folderLine (labelF e.path) else "") ++
    usersCodeLine ++ contentOf reader e.path ++ sep5


/-- The whole output file of a document-generation run: the loop's
sequential `out.write` calls fold string appends left over the sorted
included entries. -/
def assembleDoc (labelF : String → String) (reader : String → Except String String)
    (rows : List Row) : String :=
  (includedEntries rows).foldl (fun acc e => acc ++ entryOut labelF reader e) ""


/-- Proof-internal right-recursive spelling of the emitted document. -/
def docOf (labelF : String → String) (reader : String → Except String String) :
    List Row → String
  | [] => ""
  | e :: rest =>
      ((if e.depth ≤ 4 then folderLine (labelF e.path) else "") ++
        usersCodeLine ++ contentOf reader e.path ++ sep5) ++ docOf labelF reader rest


/-- A concrete included row used to instantiate the assembly theorems. -/
def sampleRow : Row := { path := "/repo/x.js", file := "x.js", depth := 1, wantDoc := true }


/-- A concrete read oracle on which every read raises. -/
def errReader : String → Except String String := fun _ => Except.error "boom"


/-! ## Theorems -/

theorem newPaths_nodup (scans : List ScanRecord) : (newPaths scans).Nodup := by
  have h := List.perm_insertionSort (α := String) (· ≤ ·) (scans.map (fun r => r.path)).dedup
  exact h.nodup_iff.mpr (List.nodup_dedup _)


theorem newPaths_sorted (scans : List ScanRecord) :
    (newPaths scans).Sorted (· ≤ ·) :=
  List.sorted_insertionSort (· ≤ ·) _


theorem mem_newPaths {scans : List ScanRecord} {p : String} :
    p ∈ newPaths scans ↔ p ∈ scans.map (fun r => r.path) := by
  have h := List.perm_insertionSort (α := String) (· ≤ ·) (scans.map (fun r => r.path)).dedup
  rw [newPaths, h.mem_iff, List.mem_dedup]


theorem buildRow_path {existingRows : List Row} {scans : List ScanRecord}
    {p : String} {row : Row}
    (h : buildRow existingRows scans p = some row) : row.path = p := by
  rw [buildRow] at h
  cases hf : scans.find? (fun r => r.path == p) with
  | none => simp [hf] at h
  | some r =>
    cases hl : lookupExisting existingRows p with
    | none => simp [hf, hl] at h; simp [← h]
    | some old => simp [hf, hl] at h; simp [← h]


theorem reconcile_paths_sublist (existingRows : List Row) (scans : List ScanRecord) :
    ((reconcile existingRows scans).map (fun r => r.path)).Sublist (newPaths scans) := by
  rw [reconcile]
  generalize newPaths scans = l
  induction l with
  | nil => simp
  | cons p l ih =>
    rw [List.filterMap_cons]
    cases hf : buildRow existingRows scans p with
    | none => exact ih.cons p
    | some row =>
      rw [List.map_cons]
      rw [buildRow_path hf]
      exact ih.cons₂ p


/-- C7: after every reconciliation run each filePath occurs at most once
among the produced selection rows, and the rows are in ascending filePath
order. -/
theorem reconcile_nodup_sorted (existingRows : List Row) (scans : List ScanRecord) :
    ((reconcile existingRows scans).map (fun r => r.path)).Nodup ∧
      ((reconcile existingRows scans).map (fun r => r.path)).Sorted (· ≤ ·) := by
  refine ⟨(reconcile_paths_sublist existingRows scans).nodup (newPaths_nodup scans), ?_⟩
  exact (newPaths_sorted scans).sublist (reconcile_paths_sublist existingRows scans)


theorem find?_of_mem_paths {scans : List ScanRecord} {p : String}
    (h : p ∈ scans.map (fun r => r.path)) :
    ∃ r, scans.find? (fun r => r.path == p) = some r := by
  rcases List.mem_map.mp h with ⟨r, hr, hrp⟩
  have hs : (scans.find? (fun r => r.path == p)).isSome = true :=
    List.find?_isSome.mpr ⟨r, hr, by simp [hrp]⟩
  cases hf : scans.find? (fun r => r.path == p) with
  | none => rw [hf] at hs; simp at hs
  | some r' => exact ⟨r', rfl⟩


theorem rowFor_path (existingRows : List Row) (scans : List ScanRecord) (p : String) :
    (rowFor existingRows scans p).path = p := by
  rw [rowFor]
  cases scans.find? (fun r => r.path == p) with
  | none => rfl
  | some r => cases lookupExisting existingRows p with
    | none => rfl
    | some old => rfl


theorem buildRow_eq_rowFor {existingRows : List Row} {scans : List ScanRecord} {p : String}
    (h : p ∈ scans.map (fun r => r.path)) :
    buildRow existingRows scans p = some (rowFor existingRows scans p) := by
  rcases find?_of_mem_paths h with ⟨r, hf⟩
  rw [buildRow, rowFor, hf]
  cases lookupExisting existingRows p with
  | none => rfl
  | some old => rfl


theorem filterMap_eq_map_of_forall {α β : Type _} {f : α → Option β} {g : α → β} :
    ∀ {l : List α}, (∀ a ∈ l, f a = some (g a)) → l.filterMap f = l.map g := by
  intro l
  induction l with
  | nil => intro _; rfl
  | cons a l ih =>
    intro h
    rw [List.filterMap_cons, h a (List.mem_cons_self a l), List.map_cons,
      ih (fun b hb => h b (List.mem_cons_of_mem a hb))]


theorem reconcile_eq_map (existingRows : List Row) (scans : List ScanRecord) :
    reconcile existingRows scans = (newPaths scans).map (rowFor existingRows scans) := by
  rw [reconcile]
  exact filterMap_eq_map_of_forall (fun p hp => buildRow_eq_rowFor (mem_newPaths.mp hp))


/-- C1: reconciliation produces, for every filePath present in the fresh
scan, a row whose WantDoc equals the previously stored value when the
existing table has that path and `false` otherwise; and no row is produced
for a path absent from the fresh scan. -/
theorem reconcile_flag_preservation (existingRows : List Row) (scans : List ScanRecord)
    (p : String) :
    (p ∈ scans.map (fun r => r.path) →
      ∃ row ∈ reconcile existingRows scans, row.path = p ∧
        row.wantDoc = ((lookupExisting existingRows p).map (fun r => r.wantDoc)).getD false) ∧
    (p ∉ scans.map (fun r => r.path) →
      ∀ row ∈ reconcile existingRows scans, row.path ≠ p) := by
  constructor
  · intro hmem
    refine ⟨rowFor existingRows scans p, ?_, rowFor_path _ _ _, ?_⟩
    · exact List.mem_filterMap.mpr ⟨p, mem_newPaths.mpr hmem, buildRow_eq_rowFor hmem⟩
    · rcases find?_of_mem_paths hmem with ⟨r, hf⟩
      rw [rowFor, hf]
      cases lookupExisting existingRows p with
      | none => rfl
      | some old => rfl
  · intro hout row hrow
    rcases List.mem_filterMap.mp hrow with ⟨q, hq, hbuild⟩
    intro hcontra
    rw [buildRow_path hbuild] at hcontra
    exact hout (mem_newPaths.mp (hcontra ▸ hq))


theorem lookupExisting_reconcile {existingRows : List Row} {scans : List ScanRecord}
    {p : String} (hp : p ∈ newPaths scans) (hne : p ≠ "") :
    lookupExisting (reconcile existingRows scans) p =
      some (rowFor existingRows scans p) := by
  rw [lookupExisting, if_neg hne, reconcile_eq_map, List.filter_map]
  have hcong : (newPaths scans).filter
        ((fun r => decide (r.path = p)) ∘ rowFor existingRows scans) =
      (newPaths scans).filter (fun q => decide (q = p)) :=
    List.filter_congr (fun q _ => by simp [Function.comp, rowFor_path])
  rw [hcong, List.filter_eq, List.count_eq_one_of_mem (newPaths_nodup scans) hp]
  rfl


/-- C2: reconciling a second time with the same fresh scan input, feeding
the first run's output back in as the existing entries, reproduces the
first run's output exactly. -/
theorem reconcile_idempotent (existingRows : List Row) (scans : List ScanRecord) :
    reconcile (reconcile existingRows scans) scans = reconcile existingRows scans := by
  have hcongr : (newPaths scans).map (rowFor (reconcile existingRows scans) scans) =
      (newPaths scans).map (rowFor existingRows scans) := by
    refine List.map_congr_left (fun p hp => ?_)
    rcases find?_of_mem_paths (mem_newPaths.mp hp) with ⟨r, hf⟩
    by_cases hne : p = ""
    · subst hne
      rw [rowFor, rowFor, hf]
      have h1 : lookupExisting (reconcile existingRows scans) "" = none := by
        rw [lookupExisting]; simp
      have h2 : lookupExisting existingRows "" = none := by
        rw [lookupExisting]; simp
      rw [h1, h2]
    · rw [rowFor, hf, lookupExisting_reconcile hp hne]
      rw [rowFor, hf]
      cases lookupExisting existingRows p with
      | none => rfl
      | some old => rfl
  calc reconcile (reconcile existingRows scans) scans
      = (newPaths scans).map (rowFor (reconcile existingRows scans) scans) :=
        reconcile_eq_map _ _
    _ = (newPaths scans).map (rowFor existingRows scans) := hcongr
    _ = reconcile existingRows scans := (reconcile_eq_map _ _).symm


/-- C10: the loaded rule set is exactly, in file order, the stripped lines
that are non-empty and do not start with `#`; with no ignore file the rule
set is empty. -/
theorem load_gitignore_patterns_spec (ls : List String) :
    load_gitignore_patterns (some ls) =
      (ls.map pyStrip).filter (fun l => !((l == "") || l.startsWith "#")) ∧
    load_gitignore_patterns none = [] := by
  refine ⟨?_, rfl⟩
  induction ls with
  | nil => rfl
  | cons a l ih =>
    rw [load_gitignore_patterns] at ih ⊢
    rw [List.filterMap_cons, List.map_cons, List.filter_cons]
    by_cases h : ((pyStrip a == "") || (pyStrip a).startsWith "#") = true
    · simp only [h, if_pos, Bool.not_true, if_false, ih]
      simp
    · simp only [Bool.not_eq_true] at h
      simp only [h, Bool.not_false, if_true, ih]
      simp


/-- C3: at the concrete failing input — the ignore pattern `build` and the
relative directory `build` — the bare relative path does match the pattern
list, yet `should_skip_dir` does not skip the directory, because the code
only ever tests the path with the trailing separator appended
(`fnmatch("build/", "build")` is false), contradicting both the claim and
the function's own comment. -/
theorem should_skip_dir_misses_bare_pattern :
    should_skip_dir "build" ["build"] = false ∧
    path_matches_patterns "build" ["build"] = true := by
  constructor
  · have h : ("build" ++ "/").data = ['b', 'u', 'i', 'l', 'd', '/'] := rfl
    simp [should_skip_dir, path_matches_patterns, fnmatch, h, globMatch]
  · simp [path_matches_patterns, fnmatch, globMatch]


theorem walkEntries_nil (patterns relParts : List String) :
    walkEntries patterns relParts .nil = ([], []) := rfl


theorem walkEntries_file (patterns relParts : List String) (n : String) (rest : FSEntries) :
    walkEntries patterns relParts (.cons (.file n) rest) =
      (emitFile patterns relParts n ++ (walkEntries patterns relParts rest).1,
        (walkEntries patterns relParts rest).2) := rfl


theorem walkEntries_dir (patterns relParts : List String) (n : String) (cs rest : FSEntries) :
    walkEntries patterns relParts (.cons (.dir n cs) rest) =
      ((walkEntries patterns relParts rest).1,
        (if (relParts ++ [n]).any (fun part => hardcodedIgnores.contains part) then []
         else if should_skip_dir (joinParts (relParts ++ [n])) patterns then []
         else (walkEntries patterns (relParts ++ [n]) cs).1 ++
              (walkEntries patterns (relParts ++ [n]) cs).2) ++
        (walkEntries patterns relParts rest).2) := rfl


theorem prefix_length_lt {l q : List String} (h : l <+: q) (hne : q ≠ l) :
    l.length < q.length :=
  lt_of_le_of_ne h.length_le (fun hl => hne (h.eq_of_length hl).symm)


theorem walkEntries_mem (patterns : List String) (relParts : List String)
    (entries : FSEntries) :
    ∀ rec : List String,
      rec ∈ (walkEntries patterns relParts entries).1 ∨
        rec ∈ (walkEntries patterns relParts entries).2 →
      relParts <+: rec ∧ relParts ≠ rec ∧
        (∀ x, rec.getLast? = some x →
          (pySuffix x == ".js" || pySuffix x == ".css") = true) ∧
        (∀ q : List String, relParts <+: q → q <+: rec → q ≠ relParts → q ≠ rec →
          q.any (fun part => hardcodedIgnores.contains part) = false ∧
          should_skip_dir (joinParts q) patterns = false) := by
  induction relParts, entries using walkEntries.induct patterns with
  | case1 relParts =>
    intro rec hmem
    rw [walkEntries_nil] at hmem
    simp at hmem
  | case2 relParts n rest ih =>
    intro rec hmem
    rw [walkEntries_file] at hmem
    simp only [List.mem_append] at hmem
    rcases hmem with (hemit | hrest) | hrest
    · rw [emitFile] at hemit
      by_cases hcond : ((pySuffix n == ".js" || pySuffix n == ".css")
          && !(path_matches_patterns (joinParts (relParts ++ [n])) patterns)) = true
      · rw [if_pos hcond] at hemit
        simp only [List.mem_singleton] at hemit
        subst hemit
        refine ⟨List.prefix_append _ _, ?_, ?_, ?_⟩
        · intro h
          have := congrArg List.length h
          simp at this
        · intro x hx
          rw [List.getLast?_concat] at hx
          cases hx
          exact (Bool.and_eq_true _ _).mp hcond |>.1
        · intro q h1 h2 hne1 hne2
          exfalso
          have hl1 : relParts.length < q.length := prefix_length_lt h1 hne1
          have hl2 : q.length < (relParts ++ [n]).length := prefix_length_lt h2 hne2.symm
          rw [List.length_append] at hl2
          simp at hl2
          omega
      · rw [if_neg hcond] at hemit
        simp at hemit
    · exact ih rec (Or.inl hrest)
    · exact ih rec (Or.inr hrest)
  | case3 relParts n cs rest q0 ihrest ihcs =>
    intro rec hmem
    have hq0 : q0 = relParts ++ [n] := rfl
    rw [walkEntries_dir] at hmem
    rcases hmem with hrest | hmem
    · exact ihrest rec (Or.inl hrest)
    · rw [List.mem_append] at hmem
      rcases hmem with hsub | hrest
      · by_cases hg1 : (relParts ++ [n]).any (fun part => hardcodedIgnores.contains part) = true
        · rw [if_pos hg1] at hsub
          simp at hsub
        · rw [if_neg hg1] at hsub
          by_cases hg2 : should_skip_dir (joinParts (relParts ++ [n])) patterns = true
          · rw [if_pos hg2] at hsub
            simp at hsub
          · rw [if_neg hg2] at hsub
            have ihq := ihcs rec ((List.mem_append.mp hsub).elim Or.inl Or.inr)
            rw [hq0] at ihq
            obtain ⟨hqpfx, hqne, hlast, hqprops⟩ := ihq
            have hpq : relParts <+: relParts ++ [n] := List.prefix_append _ _
            have hql : (relParts ++ [n]).length = relParts.length + 1 := by
              rw [List.length_append]; rfl
            have hreclen : (relParts ++ [n]).length < rec.length :=
              prefix_length_lt hqpfx (fun h => hqne h.symm)
            refine ⟨hpq.trans hqpfx, ?_, hlast, ?_⟩
            · intro h
              have := congrArg List.length h
              omega
            · intro q h1 h2 hne1 hne2
              have hl1 : relParts.length < q.length := prefix_length_lt h1 hne1
              have hqq : (relParts ++ [n]) <+: q :=
                List.prefix_of_prefix_length_le hqpfx h2 (by omega)
              by_cases heq : q = relParts ++ [n]
              · subst heq
                exact ⟨Bool.eq_false_iff.mpr (fun h => hg1 h),
                  Bool.eq_false_iff.mpr (fun h => hg2 h)⟩
              · exact hqprops q hqq h2 heq hne2
      · exact ihrest rec (Or.inr hrest)


/-- C4: a file whose relative path has a component equal to a built-in
hardcoded-ignore name never appears in the scan results, and neither does
a file below any directory whose relative path (tested with a trailing
separator, i.e. by `should_skip_dir`) matches the ignore rule set: every
record's components avoid `hardcodedIgnores`, and every proper nonempty
ancestor prefix of a record fails `should_skip_dir`. -/
theorem scan_folder_pruning (patterns : List String) (rootEntries : FSEntries)
    (rec : List String) (hmem : rec ∈ scan_folder patterns rootEntries) :
    (∀ part ∈ rec, part ∉ hardcodedIgnores) ∧
    (∀ q : List String, q <+: rec → q ≠ [] → q ≠ rec →
      should_skip_dir (joinParts q) patterns = false) := by
  have hw := walkEntries_mem patterns [] rootEntries rec
    ((List.mem_append.mp hmem).elim Or.inl Or.inr)
  obtain ⟨hpfx, hne, hlast, hprops⟩ := hw
  have hrecne : rec ≠ [] := fun h => hne h.symm
  constructor
  · intro part hpart
    rw [← List.dropLast_append_getLast hrecne] at hpart
    rcases List.mem_append.mp hpart with hd | hl
    · have hdne : rec.dropLast ≠ [] := List.ne_nil_of_mem hd
      have hdpfx : rec.dropLast <+: rec := List.dropLast_prefix rec
      have hdner : rec.dropLast ≠ rec := by
        intro h
        have hlen := congrArg List.length h
        rw [List.length_dropLast] at hlen
        have hnz : rec.length ≠ 0 := fun hh => hrecne (List.length_eq_zero.mp hh)
        omega
      have hany := (hprops rec.dropLast List.nil_prefix hdpfx hdne hdner).1
      rw [List.any_eq_false] at hany
      intro hmem2
      exact absurd (by simpa using hmem2) (by simpa using hany part hd)
    · rw [List.mem_singleton] at hl
      subst hl
      have hsuf := hlast _ (List.getLast?_eq_getLast rec hrecne)
      intro hmem2
      simp only [hardcodedIgnores, List.mem_cons, List.not_mem_nil, or_false] at hmem2
      rcases hmem2 with h | h | h <;> rw [h] at hsuf <;> exact absurd hsuf (by decide)
  · intro q h1 h2 h3
    exact (hprops q List.nil_prefix h1 h2 h3).2


theorem scan_folder_pruning_witness :
    (["src", "d.css"] ∈ scan_folder [] sampleTree) ∧
    ((∀ part ∈ ["src", "d.css"], part ∉ hardcodedIgnores) ∧
     (∀ q : List String, q <+: ["src", "d.css"] → q ≠ [] → q ≠ ["src", "d.css"] →
       should_skip_dir (joinParts q) [] = false)) :=
  ⟨by decide, scan_folder_pruning [] sampleTree ["src", "d.css"] (by decide)⟩


theorem strStartsWith_eq_of_length {file p q : String}
    (hp : strStartsWith file p = true) (hq : strStartsWith file q = true)
    (hl : p.length = q.length) : p = q := by
  rw [strStartsWith, List.isPrefixOf_iff_prefix] at hp hq
  have hl' : p.data.length = q.data.length := hl
  exact String.ext ((List.prefix_of_prefix_length_le hp hq (le_of_eq hl')).eq_of_length hl')


theorem foldl_bestStep_spec (file : String) :
    ∀ (l : List String) (acc : Option String),
      (∀ b, acc = some b → strStartsWith file b = true) →
      ∀ r : String,
        (l.foldl (bestStep file) acc = some r ↔
          ((acc = some r ∨ (r ∈ l ∧ strStartsWith file r = true)) ∧
            (∀ b, acc = some b → b.length ≤ r.length) ∧
            (∀ q ∈ l, strStartsWith file q = true → q.length ≤ r.length))) := by
  intro l
  induction l with
  | nil =>
    intro acc hacc r
    simp only [List.foldl_nil]
    constructor
    · intro h
      refine ⟨Or.inl h, (fun b hb => by rw [h] at hb; cases hb; rfl), by simp⟩
    · rintro ⟨hmem, _, _⟩
      rcases hmem with heq | ⟨hrl, _⟩
      · exact heq
      · exact absurd hrl (List.not_mem_nil r)
  | cons c l ih =>
    intro acc hacc r
    rw [List.foldl_cons]
    have hacc' : ∀ b, bestStep file acc c = some b → strStartsWith file b = true := by
      intro b hb
      by_cases hc : strStartsWith file c = true
      · cases acc with
        | none =>
          simp only [bestStep, if_pos hc] at hb
          cases hb
          exact hc
        | some b0 =>
          by_cases hlen : c.length > b0.length
          · simp only [bestStep, if_pos hc, if_pos hlen] at hb
            cases hb
            exact hc
          · simp only [bestStep, if_pos hc, if_neg hlen] at hb
            exact hacc b hb
      · simp only [bestStep, if_neg hc] at hb
        exact hacc b hb
    rw [ih (bestStep file acc c) hacc' r]
    by_cases hc : strStartsWith file c = true
    · cases acc with
      | none =>
        have hstep : bestStep file none c = some c := by
          simp [bestStep, hc]
        rw [hstep]
        constructor
        · rintro ⟨hmem, hbnd, hl⟩
          rcases hmem with heq | ⟨hrl, hsw⟩
          · cases heq
            refine ⟨Or.inr ⟨List.mem_cons_self _ _, hc⟩, (fun b hb => by cases hb), ?_⟩
            intro q hq hswq
            rcases List.mem_cons.mp hq with rfl | hq'
            · rfl
            · exact hl q hq' hswq
          · refine ⟨Or.inr ⟨List.mem_cons_of_mem _ hrl, hsw⟩, (fun b hb => by cases hb), ?_⟩
            intro q hq hswq
            rcases List.mem_cons.mp hq with rfl | hq'
            · exact hbnd q rfl
            · exact hl q hq' hswq
        · rintro ⟨hmem, _, hl⟩
          rcases hmem with heq | ⟨hrl, hsw⟩
          · cases heq
          · rcases List.mem_cons.mp hrl with rfl | hrl'
            · exact ⟨Or.inl rfl, (fun b hb => by cases hb; rfl),
                fun q hq hswq => hl q (List.mem_cons_of_mem _ hq) hswq⟩
            · refine ⟨Or.inr ⟨hrl', hsw⟩,
                (fun b hb => by cases hb; exact hl c (List.mem_cons_self _ _) hc), ?_⟩
              intro q hq hswq
              exact hl q (List.mem_cons_of_mem _ hq) hswq
      | some b0 =>
        have hswb0 : strStartsWith file b0 = true := hacc b0 rfl
        by_cases hlen : c.length > b0.length
        · have hstep : bestStep file (some b0) c = some c := by
            simp [bestStep, hc, hlen]
          rw [hstep]
          constructor
          · rintro ⟨hmem, hbnd, hl⟩
            rcases hmem with heq | ⟨hrl, hsw⟩
            · cases heq
              refine ⟨Or.inr ⟨List.mem_cons_self _ _, hc⟩,
                (fun b hb => by cases hb; omega), ?_⟩
              intro q hq hswq
              rcases List.mem_cons.mp hq with rfl | hq'
              · rfl
              · exact hl q hq' hswq
            · have hcr : c.length ≤ r.length := hbnd c rfl
              refine ⟨Or.inr ⟨List.mem_cons_of_mem _ hrl, hsw⟩,
                (fun b hb => by cases hb; omega), ?_⟩
              intro q hq hswq
              rcases List.mem_cons.mp hq with rfl | hq'
              · exact hcr
              · exact hl q hq' hswq
          · rintro ⟨hmem, hbnd, hl⟩
            rcases hmem with heq | ⟨hrl, hsw⟩
            · cases heq
              have : c.length ≤ r.length := hl c (List.mem_cons_self _ _) hc
              omega
            · rcases List.mem_cons.mp hrl with rfl | hrl'
              · exact ⟨Or.inl rfl, (fun b hb => by cases hb; rfl),
                  fun q hq hswq => hl q (List.mem_cons_of_mem _ hq) hswq⟩
              · refine ⟨Or.inr ⟨hrl', hsw⟩,
                  (fun b hb => by cases hb; exact hl c (List.mem_cons_self _ _) hc), ?_⟩
                intro q hq hswq
                exact hl q (List.mem_cons_of_mem _ hq) hswq
        · have hstep : bestStep file (some b0) c = some b0 := by
            simp [bestStep, hc, hlen]
          rw [hstep]
          constructor
          · rintro ⟨hmem, hbnd, hl⟩
            have hb0r : b0.length ≤ r.length := hbnd b0 rfl
            refine ⟨?_, (fun b hb => by cases hb; exact hb0r), ?_⟩
            · rcases hmem with heq | ⟨hrl, hsw⟩
              · cases heq
                exact Or.inl rfl
              · exact Or.inr ⟨List.mem_cons_of_mem _ hrl, hsw⟩
            · intro q hq hswq
              rcases List.mem_cons.mp hq with rfl | hq'
              · omega
              · exact hl q hq' hswq
          · rintro ⟨hmem, hbnd, hl⟩
            rcases hmem with heq | ⟨hrl, hsw⟩
            · cases heq
              exact ⟨Or.inl rfl, (fun b hb => by cases hb; rfl),
                fun q hq hswq => hl q (List.mem_cons_of_mem _ hq) hswq⟩
            · rcases List.mem_cons.mp hrl with rfl | hrl'
              · have h2 : b0.length ≤ r.length := hbnd b0 rfl
                have hreq : r = b0 := strStartsWith_eq_of_length hsw hswb0 (by omega)
                cases hreq
                exact ⟨Or.inl rfl, (fun b hb => by cases hb; rfl),
                  fun q hq hswq => hl q (List.mem_cons_of_mem _ hq) hswq⟩
              · refine ⟨Or.inr ⟨hrl', hsw⟩, (fun b hb => by cases hb; exact hbnd b0 rfl), ?_⟩
                intro q hq hswq
                exact hl q (List.mem_cons_of_mem _ hq) hswq
    · have hstep : bestStep file acc c = acc := by
        simp [bestStep, hc]
      rw [hstep]
      constructor
      · rintro ⟨hmem, hbnd, hl⟩
        refine ⟨?_, hbnd, ?_⟩
        · rcases hmem with heq | ⟨hrl, hsw⟩
          · exact Or.inl heq
          · exact Or.inr ⟨List.mem_cons_of_mem _ hrl, hsw⟩
        · intro q hq hswq
          rcases List.mem_cons.mp hq with rfl | hq'
          · exact absurd hswq hc
          · exact hl q hq' hswq
      · rintro ⟨hmem, hbnd, hl⟩
        refine ⟨?_, hbnd, ?_⟩
        · rcases hmem with heq | ⟨hrl, hsw⟩
          · exact Or.inl heq
          · rcases List.mem_cons.mp hrl with rfl | hrl'
            · exact absurd hsw hc
            · exact Or.inr ⟨hrl', hsw⟩
        · intro q hq hswq
          exact hl q (List.mem_cons_of_mem _ hq) hswq


theorem find_best_spec (file : String) (cfs : List String) (r : String) :
    find_best_codefolder file cfs = some r ↔
      (r ∈ cfs ∧ strStartsWith file r = true ∧
        ∀ q ∈ cfs, strStartsWith file q = true → q.length ≤ r.length) := by
  rw [find_best_codefolder,
    foldl_bestStep_spec file cfs none (fun b hb => by cases hb) r]
  constructor
  · rintro ⟨hmem, _, hl⟩
    rcases hmem with heq | ⟨hrl, hsw⟩
    · cases heq
    · exact ⟨hrl, hsw, hl⟩
  · rintro ⟨hrl, hsw, hl⟩
    exact ⟨Or.inr ⟨hrl, hsw⟩, (fun b hb => by cases hb), hl⟩


/-- C5 (counterexample): with the single root `/a/b` and the file
`/a/bc/d.js`, the code selects `/a/b` even though it is not a path-prefix
of the file — selection is by raw `startswith`, not among path-prefix
roots as the claim states. -/
theorem find_best_codefolder_not_path_based :
    find_best_codefolder "/a/bc/d.js" ["/a/b"] = some "/a/b" ∧
    isPathPfx "/a/b" "/a/bc/d.js" = false := by
  constructor
  · decide
  · decide


/-- C5 (amended): the resolver selects, among all roots that are a
character-level prefix (`startswith`) of the file path, one of greatest
length — and exactly those: `some r` is returned precisely when `r` is a
matching root no shorter than every matching root, a characterisation
independent of the order of the roots; in particular with roots `/a/b`
and `/a/b/c`, in either order, `/a/b/c/d/e.js` resolves against `/a/b/c`. -/
theorem find_best_codefolder_longest_of_matching :
    (∀ (file : String) (cfs : List String) (r : String),
      find_best_codefolder file cfs = some r ↔
        (r ∈ cfs ∧ strStartsWith file r = true ∧
          ∀ q ∈ cfs, strStartsWith file q = true → q.length ≤ r.length)) ∧
    find_best_codefolder "/a/b/c/d/e.js" ["/a/b", "/a/b/c"] = some "/a/b/c" ∧
    find_best_codefolder "/a/b/c/d/e.js" ["/a/b/c", "/a/b"] = some "/a/b/c" := by
  refine ⟨find_best_spec, by decide, by decide⟩


theorem String_mk_data (s : String) : String.mk s.data = s := by
  cases s
  rfl


theorem cleanPart_iff {p : String} :
    cleanPart p = true ↔ p.data ≠ [] ∧ '/' ∉ p.data := by
  rw [cleanPart]
  constructor
  · intro h
    have h1 := (Bool.and_eq_true _ _).mp h
    refine ⟨?_, ?_⟩
    · intro hd
      have : p = "" := String.ext hd
      simp [this] at h1
    · intro hm
      have := h1.2
      simp at this
      exact this hm
  · intro ⟨h1, h2⟩
    refine (Bool.and_eq_true _ _).mpr ⟨?_, ?_⟩
    · simp
      intro he
      exact h1 (by rw [he])
    · simp
      exact h2


theorem splitAux_chunk : ∀ (p : List Char) (cur rest : List Char), '/' ∉ p →
    splitAux cur (p ++ rest) = splitAux (p.reverse ++ cur) rest := by
  intro p
  induction p with
  | nil =>
    intro cur rest _
    simp
  | cons c p' ih =>
    intro cur rest h
    have hc : c ≠ '/' := fun hh => h (hh ▸ List.mem_cons_self c p')
    rw [List.cons_append, splitAux, if_neg hc,
      ih (c :: cur) rest (fun hm => h (List.mem_cons_of_mem _ hm))]
    congr 1
    simp


theorem splitAux_join : ∀ (parts : List (List Char)),
    (∀ p ∈ parts, p ≠ [] ∧ '/' ∉ p) →
    splitAux [] (joinSlash parts) = parts := by
  intro parts
  induction parts with
  | nil => intro _; rfl
  | cons p ps ih =>
    intro h
    have hp := h p (List.mem_cons_self _ _)
    cases ps with
    | nil =>
      have hj : joinSlash [p] = p ++ [] := by simp [joinSlash]
      rw [hj, splitAux_chunk p [] [] hp.2, splitAux]
      have hne : (p.reverse ++ []).isEmpty = false := by
        simp [List.isEmpty_iff, hp.1]
      rw [hne]
      simp
    | cons p2 ps' =>
      have hj : joinSlash (p :: p2 :: ps') = p ++ '/' :: joinSlash (p2 :: ps') := rfl
      rw [hj, splitAux_chunk p [] _ hp.2, splitAux]
      have hne : (p.reverse ++ []).isEmpty = false := by
        simp [List.isEmpty_iff, hp.1]
      rw [if_pos rfl, hne]
      have hih := ih (fun q hq => h q (List.mem_cons_of_mem _ hq))
      simp only [Bool.false_eq_true, if_false]
      rw [hih]
      simp


theorem clean_data_parts {ps : List String} (h : cleanPath ps = true) :
    ∀ p ∈ ps.map String.data, p ≠ [] ∧ '/' ∉ p := by
  intro p hp
  rcases List.mem_map.mp hp with ⟨q, hq, rfl⟩
  exact cleanPart_iff.mp (List.all_eq_true.mp h q hq)


theorem splitAbs_absStr {ps : List String} (h : cleanPath ps = true) :
    splitAbs (absStr ps) = ps := by
  rw [splitAbs, absStr]
  have hdata : (String.mk ('/' :: joinSlash (ps.map String.data))).data =
      '/' :: joinSlash (ps.map String.data) := rfl
  rw [hdata, splitAux, if_pos rfl]
  simp only [List.isEmpty_nil, if_true]
  rw [splitAux_join (ps.map String.data) (clean_data_parts h)]
  rw [List.map_map]
  have : (String.mk ∘ String.data) = id := funext String_mk_data
  rw [this, List.map_id]


theorem cleanPath_dropLast {ps : List String} (h : cleanPath ps = true) :
    cleanPath ps.dropLast = true := by
  rw [cleanPath, List.all_eq_true] at h ⊢
  exact fun p hp => h p ((List.dropLast_sublist ps).subset hp)


theorem sep_pfx : ∀ (a b x y : List Char), '/' ∉ a → '/' ∉ b →
    (a ++ '/' :: x) <+: (b ++ '/' :: y) → a = b ∧ x <+: y := by
  intro a
  induction a with
  | nil =>
    intro b x y _ hb hpre
    cases b with
    | nil =>
      simp only [List.nil_append] at hpre
      exact ⟨rfl, (List.cons_prefix_cons.mp hpre).2⟩
    | cons β b' =>
      simp only [List.nil_append, List.cons_append] at hpre
      have := (List.cons_prefix_cons.mp hpre).1
      exact absurd (this ▸ List.mem_cons_self β b') hb
  | cons α a' ih =>
    intro b x y ha hb hpre
    cases b with
    | nil =>
      simp only [List.cons_append, List.nil_append] at hpre
      have := (List.cons_prefix_cons.mp hpre).1
      exact absurd (this ▸ List.mem_cons_self α a') ha
    | cons β b' =>
      simp only [List.cons_append] at hpre
      obtain ⟨hab, hrest⟩ := List.cons_prefix_cons.mp hpre
      have hres := ih b' x y (fun hm => ha (List.mem_cons_of_mem _ hm))
        (fun hm => hb (List.mem_cons_of_mem _ hm)) hrest
      exact ⟨by rw [hab, hres.1], hres.2⟩


theorem parts_prefix_of_char_prefix : ∀ (cs fs : List String),
    cleanPath cs = true → cleanPath fs = true →
    joinSlash (cs.map String.data) <+: joinSlash (fs.map String.data) →
    cs.dropLast <+: fs.dropLast := by
  intro cs
  induction cs with
  | nil =>
    intro fs _ _ _
    exact List.nil_prefix
  | cons c cs' ih =>
    intro fs hc hf hpre
    have hcclean := cleanPart_iff.mp (List.all_eq_true.mp hc c (List.mem_cons_self _ _))
    cases cs' with
    | nil =>
      simp only [List.dropLast_single]
      exact List.nil_prefix
    | cons c2 cs'' =>
      have hjc : joinSlash ((c :: c2 :: cs'').map String.data) =
          c.data ++ '/' :: joinSlash ((c2 :: cs'').map String.data) := rfl
      cases fs with
      | nil =>
        rw [hjc] at hpre
        have := List.IsPrefix.eq_of_length hpre ?hlen
        · exact absurd (congrArg List.length this) (by
            simp only [joinSlash, List.map_nil, List.length_nil, List.length_append]
            simp)
        case hlen =>
          have h0 := hpre.length_le
          simp only [joinSlash, List.map_nil, List.length_nil] at h0 ⊢
          omega
      | cons f fs' =>
        have hfclean := cleanPart_iff.mp (List.all_eq_true.mp hf f (List.mem_cons_self _ _))
        cases fs' with
        | nil =>
          rw [hjc] at hpre
          have hjf : joinSlash ([f].map String.data) = f.data := rfl
          rw [hjf] at hpre
          have hmem : '/' ∈ f.data :=
            hpre.subset (List.mem_append_right _ (List.mem_cons_self _ _))
          exact absurd hmem hfclean.2
        | cons f2 fs'' =>
          have hjf : joinSlash ((f :: f2 :: fs'').map String.data) =
              f.data ++ '/' :: joinSlash ((f2 :: fs'').map String.data) := rfl
          rw [hjc, hjf] at hpre
          obtain ⟨hcf, hrest⟩ := sep_pfx c.data f.data _ _ hcclean.2 hfclean.2 hpre
          have hih := ih (f2 :: fs'')
            (by rw [cleanPath, List.all_eq_true] at hc ⊢
                exact fun p hp => hc p (List.mem_cons_of_mem _ hp))
            (by rw [cleanPath, List.all_eq_true] at hf ⊢
                exact fun p hp => hf p (List.mem_cons_of_mem _ hp))
            hrest
          have hcfs : c = f := String.ext hcf
          rw [List.dropLast_cons₂, List.dropLast_cons₂, hcfs]
          exact List.cons_prefix_cons.mpr ⟨rfl, hih⟩


/-- C6: for clean absolute inputs (the output shape of `Path.resolve()`),
label resolution never fails: with no matching root it returns the file's
parent directory's absolute path unchanged, and with a matching root the
`relative_to` call always succeeds and the label is `../` followed by the
root-parent-relative path of the file's parent. -/
theorem resolveLabel_total (fparts : List String) (roots : List (List String))
    (hf : cleanPath fparts = true) (hr : ∀ rp ∈ roots, cleanPath rp = true) :
    resolveLabel (absStr fparts) (roots.map absStr) ≠ none ∧
    (find_best_codefolder (absStr fparts) (roots.map absStr) = none →
      resolveLabel (absStr fparts) (roots.map absStr) = some (parentStr (absStr fparts))) ∧
    (∀ cf, find_best_codefolder (absStr fparts) (roots.map absStr) = some cf →
      ∃ rel, resolveLabel (absStr fparts) (roots.map absStr) = some ("../" ++ rel)) := by
  cases hfb : find_best_codefolder (absStr fparts) (roots.map absStr) with
  | none =>
    have hres : resolveLabel (absStr fparts) (roots.map absStr) =
        some (parentStr (absStr fparts)) := by
      simp only [resolveLabel, hfb]
    refine ⟨by rw [hres]; simp, fun _ => hres, fun cf hcf => ?_⟩
    exact Option.noConfusion hcf
  | some cf =>
    obtain ⟨hcmem, hsw, _⟩ := (find_best_spec _ _ _).mp hfb
    obtain ⟨rparts, hrmem, rfl⟩ := List.mem_map.mp hcmem
    have hrclean := hr rparts hrmem
    have hsw' : (absStr rparts).data <+: (absStr fparts).data := by
      rw [← List.isPrefixOf_iff_prefix]
      exact hsw
    have hchars : ('/' :: joinSlash (rparts.map String.data)) <+:
        ('/' :: joinSlash (fparts.map String.data)) := hsw'
    have hjoin := (List.cons_prefix_cons.mp hchars).2
    have hdrop : rparts.dropLast <+: fparts.dropLast :=
      parts_prefix_of_char_prefix rparts fparts hrclean hf hjoin
    have hsp1 : splitAbs (parentStr (absStr fparts)) = fparts.dropLast := by
      rw [parentStr, splitAbs_absStr hf, splitAbs_absStr (cleanPath_dropLast hf)]
    have hsp2 : splitAbs (parentStr (absStr rparts)) = rparts.dropLast := by
      rw [parentStr, splitAbs_absStr hrclean, splitAbs_absStr (cleanPath_dropLast hrclean)]
    have hrel : relTo (splitAbs (parentStr (absStr fparts)))
        (splitAbs (parentStr (absStr rparts))) =
        some ((fparts.dropLast).drop (rparts.dropLast).length) := by
      rw [hsp1, hsp2, relTo, if_pos (List.isPrefixOf_iff_prefix.mpr hdrop)]
    have hres : resolveLabel (absStr fparts) (roots.map absStr) =
        some ("../" ++ relStr ((fparts.dropLast).drop (rparts.dropLast).length)) := by
      simp only [resolveLabel, hfb]
      simp only [hrel]
    refine ⟨by rw [hres]; simp, fun h => ?_, fun cf' _ => ?_⟩
    · exact Option.noConfusion h
    · exact ⟨relStr ((fparts.dropLast).drop (rparts.dropLast).length), hres⟩


theorem resolveLabel_total_witness :
    (cleanPath ["a", "b", "c", "d", "e.js"] = true ∧
      (∀ rp ∈ [["a", "b"], ["a", "b", "c"]], cleanPath rp = true)) ∧
    (resolveLabel (absStr ["a", "b", "c", "d", "e.js"])
        ([["a", "b"], ["a", "b", "c"]].map absStr) ≠ none ∧
      (find_best_codefolder (absStr ["a", "b", "c", "d", "e.js"])
          ([["a", "b"], ["a", "b", "c"]].map absStr) = none →
        resolveLabel (absStr ["a", "b", "c", "d", "e.js"])
            ([["a", "b"], ["a", "b", "c"]].map absStr) =
          some (parentStr (absStr ["a", "b", "c", "d", "e.js"]))) ∧
      (∀ cf, find_best_codefolder (absStr ["a", "b", "c", "d", "e.js"])
          ([["a", "b"], ["a", "b", "c"]].map absStr) = some cf →
        ∃ rel, resolveLabel (absStr ["a", "b", "c", "d", "e.js"])
            ([["a", "b"], ["a", "b", "c"]].map absStr) = some ("../" ++ rel))) :=
  ⟨⟨by decide, by decide⟩,
    resolveLabel_total ["a", "b", "c", "d", "e.js"] [["a", "b"], ["a", "b", "c"]]
      (by decide) (by decide)⟩


theorem foldl_entryOut_eq_docOf (labelF : String → String)
    (reader : String → Except String String) :
    ∀ (l : List Row) (init : String),
      l.foldl (fun acc e => acc ++ entryOut labelF reader e) init =
        init ++ docOf labelF reader l := by
  intro l
  induction l with
  | nil =>
    intro init
    rw [List.foldl_nil, docOf, String.append_empty]
  | cons e rest ih =>
    intro init
    rw [List.foldl_cons, docOf, ih, String.append_assoc]
    rfl


theorem assembleDoc_eq_docOf (labelF : String → String)
    (reader : String → Except String String) (rows : List Row) :
    assembleDoc labelF reader rows = docOf labelF reader (includedEntries rows) := by
  rw [assembleDoc, foldl_entryOut_eq_docOf, String.empty_append]


theorem docOf_append (labelF : String → String)
    (reader : String → Except String String) :
    ∀ (l1 l2 : List Row),
      docOf labelF reader (l1 ++ l2) = docOf labelF reader l1 ++ docOf labelF reader l2 := by
  intro l1
  induction l1 with
  | nil =>
    intro l2
    rw [List.nil_append, docOf, String.empty_append]
  | cons e rest ih =>
    intro l2
    rw [List.cons_append, docOf, docOf, ih]
    simp [String.append_assoc]


/-- C8: the emitted document is exactly, entry by sorted entry, an
optional folder-marker line — present precisely when the entry's depth is
at most 4 — followed by the always-present file-start marker line, the
content (or error marker) and the separator; and per entry the output
starts with the folder line exactly when `depth ≤ 4`. -/
theorem assembleDoc_folder_marker_iff_depth (labelF : String → String)
    (reader : String → Except String String) (rows : List Row) :
    assembleDoc labelF reader rows = docOf labelF reader (includedEntries rows) ∧
    (∀ e : Row, e.depth ≤ 4 →
      entryOut labelF reader e =
        folderLine (labelF e.path) ++ (usersCodeLine ++ contentOf reader e.path ++ sep5)) ∧
    (∀ e : Row, 4 < e.depth →
      entryOut labelF reader e = usersCodeLine ++ contentOf reader e.path ++ sep5) := by
  refine ⟨assembleDoc_eq_docOf labelF reader rows, ?_, ?_⟩
  · intro e he
    rw [entryOut, if_pos he]
    simp [String.append_assoc]
  · intro e he
    rw [entryOut, if_neg (by omega), String.empty_append]


/-- C9: every included entry — written at its position between the full
output of the entries before and after it, so a failure never cuts the
document short — contributes its content when readable and the inline
marker `\n[Error reading file: <reason>]\n` when reading fails, and is
followed by exactly five newline characters either way. -/
theorem assembleDoc_error_resilience (labelF : String → String)
    (reader : String → Except String String) (rows : List Row)
    (pre : List Row) (e : Row) (post : List Row)
    (hsplit : includedEntries rows = pre ++ e :: post) :
    assembleDoc labelF reader rows =
      docOf labelF reader pre ++
        (((if e.depth ≤ 4 then folderLine (labelF e.path) else "") ++
          usersCodeLine ++ contentOf reader e.path ++ sep5) ++
          docOf labelF reader post) ∧
    (∀ msg, reader e.path = Except.error msg →
      contentOf reader e.path = "\n[Error reading file: " ++ msg ++ "]\n") := by
  constructor
  · rw [assembleDoc_eq_docOf, hsplit, docOf_append, docOf]
  · intro msg hmsg
    rw [contentOf, hmsg]


theorem assembleDoc_error_resilience_witness :
    (includedEntries [sampleRow] = [] ++ sampleRow :: []) ∧
    (assembleDoc (fun _ => "L") errReader [sampleRow] =
      docOf (fun _ => "L") errReader [] ++
        (((if sampleRow.depth ≤ 4 then folderLine ((fun _ => "L") sampleRow.path) else "") ++
          usersCodeLine ++ contentOf errReader sampleRow.path ++ sep5) ++
          docOf (fun _ => "L") errReader []) ∧
      (∀ msg, errReader sampleRow.path = Except.error msg →
        contentOf errReader sampleRow.path =
          "\n[Error reading file: " ++ msg ++ "]\n")) := by
  have hs : includedEntries [sampleRow] = [] ++ sampleRow :: [] := rfl
  exact ⟨hs, assembleDoc_error_resilience (fun _ => "L") errReader
    [sampleRow] [] sampleRow [] hs⟩

